import Mathlib

/-!
Verification of the Fybrk core synchronization engine against its
natural-language specification.

The Go sources are shallowly embedded: byte buffers become `List Nat`
(each entry a byte value), `[32]byte` hashes become `List Nat` of length
32, `int64` becomes `Int`, and the SQLite-backed catalog becomes a list
of `FileMetadata` records with insert-or-replace keyed by path.  Stateful
Go functions become pure state-passing functions; fallible ones return an
error component explicitly.
-/

namespace Fybrk

/-! ## Bit-level helpers for SHA-256 (FIPS 180-4, as used by Go crypto/sha256) -/

/-- Truncation to a 32-bit word. -/
def w32 (x : Nat) : Nat := x % 4294967296

/-- Right rotation of a 32-bit word by `n` bits. -/
def rotr32 (n x : Nat) : Nat :=
  w32 ((x >>> n) + ((x % 2 ^ n) <<< (32 - n)))

/-- Bitwise complement within 32 bits. -/
def bnot32 (x : Nat) : Nat := 4294967295 - w32 x

/-- SHA-256 choice function. -/
def shaCh (x y z : Nat) : Nat := (x &&& y) ^^^ (bnot32 x &&& z)

/-- SHA-256 majority function. -/
def shaMaj (x y z : Nat) : Nat := (x &&& y) ^^^ (x &&& z) ^^^ (y &&& z)

/-- SHA-256 big sigma 0. -/
def shaS0 (x : Nat) : Nat := rotr32 2 x ^^^ rotr32 13 x ^^^ rotr32 22 x

/-- SHA-256 big sigma 1. -/
def shaS1 (x : Nat) : Nat := rotr32 6 x ^^^ rotr32 11 x ^^^ rotr32 25 x

/-- SHA-256 small sigma 0. -/
def shaG0 (x : Nat) : Nat := rotr32 7 x ^^^ rotr32 18 x ^^^ (x >>> 3)

/-- SHA-256 small sigma 1. -/
def shaG1 (x : Nat) : Nat := rotr32 17 x ^^^ rotr32 19 x ^^^ (x >>> 10)

/-- SHA-256 round constants. -/
def shaK : List Nat :=
  [1116352408, 1899447441, 3049323471, 3921009573, 961987163, 1508970993,
   2453635748, 2870763221, 3624381080, 310598401, 607225278, 1426881987,
   1925078388, 2162078206, 2614888103, 3248222580, 3835390401, 4022224774,
   264347078, 604807628, 770255983, 1249150122, 1555081692, 1996064986,
   2554220882, 2821834349, 2952996808, 3210313671, 3336571891, 3584528711,
   113926993, 338241895, 666307205, 773529912, 1294757372, 1396182291,
   1695183700, 1986661051, 2177026350, 2456956037, 2730485921, 2820302411,
   3259730800, 3345764771, 3516065817, 3600352804, 4094571909, 275423344,
   430227734, 506948616, 659060556, 883997877, 958139571, 1322822218,
   1537002063, 1747873779, 1955562222, 2024104815, 2227730452, 2361852424,
   2428436474, 2756734187, 3204031479, 3329325298]

/-- SHA-256 initial hash state. -/
def shaH0 : List Nat :=
  [1779033703, 3144134277, 1013904242, 2773480762,
   1359893119, 2600822924, 528734635, 1541459225]

/-- Big-endian bytes of a 64-bit quantity. -/
def be64 (n : Nat) : List Nat :=
  [n >>> 56 % 256, n >>> 48 % 256, n >>> 40 % 256, n >>> 32 % 256,
   n >>> 24 % 256, n >>> 16 % 256, n >>> 8 % 256, n % 256]

/-- Big-endian bytes of a 32-bit word. -/
def be32 (n : Nat) : List Nat :=
  [n >>> 24 % 256, n >>> 16 % 256, n >>> 8 % 256, n % 256]

/-- FIPS 180-4 message padding: append 0x80, zeros to 56 mod 64, then the
bit length as 8 big-endian bytes. -/
def sha256Pad (msg : List Nat) : List Nat :=
  let len := msg.length
  let k := (120 - (len + 1) % 64) % 64
  msg ++ 128 :: List.replicate k 0 ++ be64 (8 * len)

/-- Group bytes into big-endian 32-bit words. -/
def bytesToWords : List Nat → List Nat
  | a :: b :: c :: d :: rest =>
      (a % 256 * 16777216 + b % 256 * 65536 + c % 256 * 256 + d % 256) :: bytesToWords rest
  | _ => []

/-- Group a word list into 16-word blocks. -/
def wordsToBlocks (ws : List Nat) : List (List Nat) :=
  if _hw : ws = [] then []
  else ws.take 16 :: wordsToBlocks (ws.drop 16)
termination_by ws.length
decreasing_by
  simp only [List.length_drop]
  exact Nat.sub_lt (List.length_pos.mpr _hw) (by omega)

/-- Expand a 16-word block into the 64-entry message schedule. -/
def shaSchedule (block : List Nat) : List Nat :=
  (List.range 64).foldl
    (fun acc t =>
      if t < 16 then acc ++ [block.getD t 0]
      else acc ++ [w32 (shaG1 (acc.getD (t - 2) 0) + acc.getD (t - 7) 0 +
                        shaG0 (acc.getD (t - 15) 0) + acc.getD (t - 16) 0)])
    []

/-- One SHA-256 compression step over the working variables. -/
def shaRound (W : List Nat) (st : List Nat) (t : Nat) : List Nat :=
  match st with
  | [a, b, c, d, e, f, g, h] =>
      let T1 := w32 (h + shaS1 e + shaCh e f g + shaK.getD t 0 + W.getD t 0)
      let T2 := w32 (shaS0 a + shaMaj a b c)
      [w32 (T1 + T2), a, b, c, w32 (d + T1), e, f, g]
  | _ => st

/-- Compress one 512-bit block into the running hash state. -/
def shaCompress (H : List Nat) (block : List Nat) : List Nat :=
  let W := shaSchedule block
  let fin := (List.range 64).foldl (shaRound W) H
  List.zipWith (fun x y => w32 (x + y)) H fin

/-- SHA-256 of a byte sequence, as a list of 32 byte values.  This embeds
the Go standard library function `sha256.Sum256` used by the sources. -/
def sha256 (msg : List Nat) : List Nat :=
  ((wordsToBlocks (bytesToWords (sha256Pad msg))).foldl shaCompress shaH0).map be32 |>.flatten

/-! ## Data model (pkg/types/types.go) -/

/-- Chunk represents an encrypted file chunk (types.Chunk).  `hash` is the
32-byte content hash, `data` the raw bytes (plaintext or sealed), `size`
the Go `int64` length recorded at split time, `encrypted` the flag, and
`createdAt` the creation timestamp (an abstract instant). -/
structure Chunk where
  hash : List Nat
  data : List Nat
  size : Int
  encrypted : Bool
  createdAt : Nat
deriving DecidableEq, Repr

/-- FileMetadata represents file information in the sync system
(types.FileMetadata).  `modTime` is the modification instant (abstract),
`chunks` the ordered chunk-hash list, `version` the Go `int64` version. -/
structure FileMetadata where
  path : String
  hash : List Nat
  size : Int
  modTime : Int
  chunks : List (List Nat)
  version : Int
deriving DecidableEq, Repr

/-! ## Chunker (internal/storage/metadata.go) -/

/-- DefaultChunkSize = 1024 * 1024 (1MB chunks). -/
def DefaultChunkSize : Int := 1048576

/-- Chunker holds the configured chunk size (storage.Chunker). -/
structure Chunker where
  chunkSize : Int
deriving DecidableEq, Repr

/-- NewChunker: a non-positive argument falls back to DefaultChunkSize. -/
def NewChunker (chunkSize : Int) : Chunker :=
  if chunkSize ≤ 0 then { chunkSize := DefaultChunkSize } else { chunkSize := chunkSize }

/-- ChunkFile's read loop over the file bytes: repeatedly read up to
`csize` bytes, hash each buffer with SHA-256, and emit a Chunk with the
plaintext data, its length, `encrypted := false`, and the current time
`now`.  The loop stops at end of file, so an empty input yields no
chunks. -/
def chunkBytes (csize : Nat) (now : Nat) (data : List Nat) : List Chunk :=
  if _hc : csize = 0 then []
  else if _hd : data = [] then []
  else
    { hash := sha256 (data.take csize)
      data := data.take csize
      size := ((data.take csize).length : Int)
      encrypted := false
      createdAt := now } :: chunkBytes csize now (data.drop csize)
termination_by data.length
decreasing_by
  simp only [List.length_drop]
  exact Nat.sub_lt (List.length_pos.mpr _hd) (Nat.pos_of_ne_zero _hc)

/-- ChunkFile via a Chunker value: splits the byte contents of the file
with the configured chunk size (storage.Chunker.ChunkFile). -/
def ChunkFile (c : Chunker) (now : Nat) (data : List Nat) : List Chunk :=
  chunkBytes c.chunkSize.toNat now data

/-- ReassembleChunks combines chunks back into file data
(storage.Chunker.ReassembleChunks); it appends each chunk's data in
order and never fails. -/
def ReassembleChunks (chunks : List Chunk) : List Nat :=
  chunks.foldl (fun result c => result ++ c.data) []

/-! ## Cryptor (internal/storage/encryption.go)

The sources call the Go standard library's AES-256-GCM
(`crypto/aes` + `cipher.NewGCM`).  The cipher itself is a library
primitive, not repository code; it is modelled here concretely and
executably by the interface contract the sources rely on: `gcmSeal`
produces `ciphertext ++ tag` with a 16-byte tag deterministically
derived from key, nonce and plaintext, and `gcmOpen` verifies the tag
and inverts `gcmSeal`.  The 12-byte nonce handling, the
`nonce ∥ ciphertext ∥ tag` layout, the length checks and the in-place
mutation discipline are all taken directly from the repository's
`EncryptChunk` / `DecryptChunk`. -/

/-- Errors raised by the storage encryption layer (`ErrInvalidKeySize`,
`ErrDecryption` in encryption.go). -/
inductive StorageErr where
  | invalidKeySize
  | decryption
deriving DecidableEq, Repr

/-- GCM nonce size in bytes (`gcm.NonceSize()` for the standard 96-bit
nonce). -/
def nonceSize : Nat := 12

/-- GCM authentication tag size in bytes (`gcm.Overhead()`). -/
def tagSize : Nat := 16

/-- Model of the AES-256-GCM authentication tag: 16 bytes derived
deterministically from the key, the nonce and the plaintext. -/
def gcmTag (key nonce pt : List Nat) : List Nat :=
  (List.range tagSize).map
    (fun i => (i + key.sum + 3 * nonce.sum + 5 * pt.sum + 7 * pt.length) % 256)

/-- Model of `gcm.Seal`'s ciphertext: the authenticated payload followed
by the 16-byte tag (the modelled ciphertext body keeps the plaintext
bytes; confidentiality is not a proof obligation here, the length and
authentication structure are). -/
def gcmSeal (key nonce pt : List Nat) : List Nat :=
  pt ++ gcmTag key nonce pt

/-- Model of `gcm.Open`: split off and verify the trailing tag, failing
when the buffer is shorter than a tag or the tag does not verify. -/
def gcmOpen (key nonce ct : List Nat) : Option (List Nat) :=
  if ct.length < tagSize then none
  else
    let body := ct.take (ct.length - tagSize)
    let tag := ct.drop (ct.length - tagSize)
    if tag = gcmTag key nonce body then some body else none

/-- Encryptor holds the 32-byte AES-256 key (storage.Encryptor). -/
structure Encryptor where
  key : List Nat
deriving DecidableEq, Repr

/-- NewEncryptor rejects keys that are not exactly 32 bytes. -/
def NewEncryptor (key : List Nat) : Except StorageErr Encryptor :=
  if key.length ≠ 32 then .error .invalidKeySize else .ok { key := key }

/-- EncryptChunk encrypts a chunk's data using AES-GCM
(storage.Encryptor.EncryptChunk).  An already-encrypted chunk is
returned unchanged; otherwise the data becomes
`nonce ∥ gcm.Seal(...)` (Go's `gcm.Seal(nonce, nonce, data, nil)`
prepends the nonce to the ciphertext) and the flag is set.  The fresh
random 12-byte nonce is passed explicitly, making the source's
nondeterminism an explicit argument. -/
def EncryptChunk (e : Encryptor) (nonce : List Nat) (c : Chunk) : Chunk :=
  if c.encrypted then c
  else { c with data := nonce ++ gcmSeal e.key nonce c.data, encrypted := true }

/-- DecryptChunk decrypts a chunk's data using AES-GCM
(storage.Encryptor.DecryptChunk).  The result models the in-place Go
call: the first component is the returned error (if any) and the second
is the chunk's state after the call.  An unencrypted chunk is returned
untouched with no error; a buffer shorter than the nonce or a failed
`gcm.Open` returns `ErrDecryption` before any field is assigned. -/
def DecryptChunk (e : Encryptor) (c : Chunk) : Option StorageErr × Chunk :=
  if !c.encrypted then (none, c)
  else if c.data.length < nonceSize then (some .decryption, c)
  else
    match gcmOpen e.key (c.data.take nonceSize) (c.data.drop nonceSize) with
    | none => (some .decryption, c)
    | some plaintext => (none, { c with data := plaintext, encrypted := false })

/-! ## Catalog (internal/storage/metadata.go)

The SQLite `files` table keyed by `path TEXT PRIMARY KEY` with
`INSERT OR REPLACE` becomes a list of records where `catalogPut`
replaces an existing record with the same path (or appends) and
`catalogGet` finds the record by path. -/

/-- Catalog state: the rows of the `files` table. -/
abbrev Catalog : Type := List FileMetadata

/-- GetFileMetadata: look up the row with the given path
(`SELECT ... WHERE path = ?`). -/
def catalogGet (cat : Catalog) (path : String) : Option FileMetadata :=
  List.find? (fun m => m.path = path) cat

/-- StoreFileMetadata's row effect: `INSERT OR REPLACE INTO files` keyed
by path. -/
def catalogPut (cat : Catalog) (m : FileMetadata) : Catalog :=
  if List.any cat (fun e => e.path = m.path) then
    List.map (fun e => if e.path = m.path then m else e) cat
  else cat ++ [m]

/-- DeleteFileMetadata: `DELETE FROM files WHERE path = ?`; idempotent. -/
def catalogDelete (cat : Catalog) (path : String) : Catalog :=
  List.filter (fun m => m.path ≠ path) cat

/-- ListFiles returns all rows ordered by path ascending. -/
def catalogList (cat : Catalog) : List FileMetadata :=
  List.mergeSort cat (fun a b => a.path ≤ b.path)

/-! ## Path helpers (Go path/filepath, Unix separators)

`writeReceivedFile` uses `filepath.Join` and `filepath.Base`; these are
Go standard library functions, embedded here by their documented
algorithms. -/

/-- Split a character list on a separator (semantics of Go
`strings.Split`; worker with the accumulated current field). -/
def chSplitAux (sep : Char) : List Char → List Char → List (List Char)
  | [], acc => [acc.reverse]
  | c :: cs, acc =>
      if c = sep then acc.reverse :: chSplitAux sep cs []
      else chSplitAux sep cs (c :: acc)

/-- Split a character list on a separator. -/
def chSplit (sep : Char) (cs : List Char) : List (List Char) :=
  chSplitAux sep cs []

/-- Interleave a separator between character-list fields (semantics of Go
`strings.Join`). -/
def chJoinSep (sep : Char) : List (List Char) → List Char
  | [] => []
  | [x] => x
  | x :: y :: rest => x ++ sep :: chJoinSep sep (y :: rest)

/-- Clean a slash-separated path as Go's `filepath.Clean` does: drop
empty and `.` elements, resolve `..` against preceding elements (keeping
leading `..` on relative paths, discarding them at the root), and render
`.` for an empty relative result. -/
def filepathClean (p : String) : String :=
  if p.data = [] then "."
  else
    let rooted := p.data.headD ' ' = '/'
    let comps := (chSplit '/' p.data).filter (fun c => c ≠ [] && c ≠ ['.'])
    let out := comps.foldl
      (fun acc c =>
        if c = ['.', '.'] then
          match acc with
          | [] => if rooted then [] else [c]
          | a :: rest => if a = ['.', '.'] then c :: a :: rest else rest
        else c :: acc) []
    let s := chJoinSep '/' out.reverse
    if rooted then String.mk ('/' :: s)
    else if s = [] then "." else String.mk s

/-- Go's `filepath.Join` for two elements: empty elements are skipped and
the slash-joined result is cleaned. -/
def filepathJoin (a b : String) : String :=
  if a.data = [] && b.data = [] then ""
  else if a.data = [] then filepathClean b
  else if b.data = [] then filepathClean a
  else filepathClean (String.mk (a.data ++ '/' :: b.data))

/-- Go's `filepath.Base`: the last element of the path after removing
trailing slashes; `"."` for an empty path, `"/"` when the path is all
separators. -/
def filepathBase (p : String) : String :=
  if p.data = [] then "."
  else
    let q := (p.data.reverse.dropWhile (fun c => c = '/')).reverse
    if q = [] then "/"
    else String.mk (List.getLastD (chSplit '/' q) [])

/-! ## Sync engine (internal/sync/engine.go)

Filesystem observations are explicit values: an `FsFile` is the outcome
of the `os.Stat` and read syscalls on one path (size and modification
time from stat, content bytes from the read).  `processFile`,
`handleFileChange`, `handleFileRemoval` and `ScanDirectory` become
catalog-state transformers. -/

/-- Observation of one filesystem path: stat data plus content. -/
structure FsFile where
  size : Int
  modTime : Int
  isDir : Bool
  data : List Nat
deriving DecidableEq, Repr

/-- processFile (engine.go): chunk the file, seal every chunk with a
fresh nonce, hash the whole file with SHA-256, compute the version as 1
when the path is absent from the catalog and `prior.version + 1`
otherwise, and insert-or-replace the metadata row.  `now` is the chunk
creation instant and `nonces i` the random nonce drawn for chunk `i`. -/
def processFile (chunker : Chunker) (e : Encryptor) (now : Nat) (nonces : Nat → List Nat)
    (cat : Catalog) (relPath : String) (f : FsFile) : Catalog :=
  let chunks := ChunkFile chunker now f.data
  let encChunks := chunks.enum.map (fun p => EncryptChunk e (nonces p.1) p.2)
  let fileHash := sha256 f.data
  let chunkHashes := encChunks.map (fun c => c.hash)
  let version : Int :=
    match catalogGet cat relPath with
    | none => 1
    | some existing => existing.version + 1
  catalogPut cat
    { path := relPath, hash := fileHash, size := f.size, modTime := f.modTime,
      chunks := chunkHashes, version := version }

/-- handleFileChange (engine.go): skip when the stat fails (`none`) or
the path is a directory; skip when a catalog record exists with the same
modification time and size; otherwise run `processFile`. -/
def handleFileChange (chunker : Chunker) (e : Encryptor) (now : Nat) (nonces : Nat → List Nat)
    (cat : Catalog) (relPath : String) (file : Option FsFile) : Catalog :=
  match file with
  | none => cat
  | some f =>
    if f.isDir then cat
    else
      match catalogGet cat relPath with
      | some existing =>
          if f.modTime = existing.modTime && f.size = existing.size then cat
          else processFile chunker e now nonces cat relPath f
      | none => processFile chunker e now nonces cat relPath f

/-- handleFileRemoval (engine.go): delete the metadata row. -/
def handleFileRemoval (cat : Catalog) (relPath : String) : Catalog :=
  catalogDelete cat relPath

/-- ScanDirectory (engine.go): `filepath.Walk` over the sync root,
skipping directories and calling `processFile` for every regular file —
with no further filtering and no unchanged-file check.  `entries` are
the walked paths in relative form with their observations. -/
def ScanDirectory (chunker : Chunker) (e : Encryptor) (now : Nat) (nonces : Nat → List Nat)
    (cat : Catalog) (entries : List (String × FsFile)) : Catalog :=
  entries.foldl
    (fun c pf => if pf.2.isDir then c else processFile chunker e now nonces c pf.1 pf.2) cat

/-! ## Watcher (internal/watcher/watcher.go) -/

/-- A watcher event as delivered to the engine. -/
structure FileEvent where
  path : String
  operation : String
deriving DecidableEq, Repr

/-- fsnotify operation bit for Create. -/
def fsnotifyCreate : Nat := 1

/-- fsnotify operation bit for Write. -/
def fsnotifyWrite : Nat := 2

/-- fsnotify operation bit for Remove. -/
def fsnotifyRemove : Nat := 4

/-- fsnotify operation bit for Rename. -/
def fsnotifyRename : Nat := 8

/-- A raw fsnotify event: absolute path and operation bitmask. -/
structure FsnotifyEvent where
  name : String
  op : Nat
deriving DecidableEq, Repr

/-- FileWatcher.handleEvent (watcher.go): translate the fsnotify bitmask
into one of the four operations (first match wins, in source order) and
forward the event; any other operation is ignored.  The path is passed
through untouched — the watcher applies no path filtering.  (The
channel-full drop is a queueing concern outside this embedding.) -/
def watcherHandleEvent (event : FsnotifyEvent) : Option FileEvent :=
  if event.op &&& fsnotifyCreate = fsnotifyCreate then
    some { path := event.name, operation := "create" }
  else if event.op &&& fsnotifyWrite = fsnotifyWrite then
    some { path := event.name, operation := "write" }
  else if event.op &&& fsnotifyRemove = fsnotifyRemove then
    some { path := event.name, operation := "remove" }
  else if event.op &&& fsnotifyRename = fsnotifyRename then
    some { path := event.name, operation := "rename" }
  else none

/-! ## Replicator (internal/sync/multidevice.go) -/

/-- FileRequest payload: path and requested chunk hashes. -/
structure FileRequest where
  path : String
  chunks : List (List Nat)
deriving DecidableEq, Repr

/-- FileResponse payload: path and sealed chunks. -/
structure FileResponse where
  path : String
  chunks : List Chunk
deriving DecidableEq, Repr

/-- The Go map `localFileMap[file.Path] = file` built by iterating the
local file list in order: a later entry with the same path overwrites an
earlier one, and lookup returns the surviving entry. -/
def localFileMapLookup (files : List FileMetadata) (p : String) : Option FileMetadata :=
  files.foldl (fun acc f => if f.path = p then some f else acc) none

/-- handleFileList (multidevice.go): for each remote file, request it
from the sender exactly when the local map has no entry for its path or
the local version is strictly below the remote version.  The result is
the ordered list of `file_request`s sent. -/
def handleFileList (localFiles remoteFiles : List FileMetadata) : List FileRequest :=
  remoteFiles.filterMap (fun remoteFile =>
    match localFileMapLookup localFiles remoteFile.path with
    | none => some { path := remoteFile.path, chunks := remoteFile.chunks }
    | some localFile =>
        if localFile.version < remoteFile.version then
          some { path := remoteFile.path, chunks := remoteFile.chunks }
        else none)

/-- The decryption loop at the head of handleFileResponse: decrypt the
chunks in order and stop at the first failure (`return` in the Go code),
yielding `none` when any chunk fails and the decrypted list otherwise. -/
def decryptAll (e : Encryptor) : List Chunk → Option (List Chunk)
  | [] => some []
  | c :: cs =>
      match DecryptChunk e c with
      | (some _, _) => none
      | (none, c2) => (decryptAll e cs).map (fun rest => c2 :: rest)

/-- writeReceivedFile (multidevice.go): the file is written at
`filepath.Join(syncDir, filepath.Base(path))`, the written file is
re-statted (yielding its byte length and a fresh modification instant
`mtime`) and re-chunked with a DefaultChunkSize chunker, and a metadata
row is stored whose path is that full joined path, whose whole-file
hash is left at the `[32]byte` zero value, and whose version is 1.
Returns the performed write (destination path and bytes) with the new
catalog. -/
def writeReceivedFile (now : Nat) (mtime : Int) (syncDir : String) (cat : Catalog)
    (path : String) (data : List Nat) : (String × List Nat) × Catalog :=
  let fullPath := filepathJoin syncDir (filepathBase path)
  let chunks := ChunkFile (NewChunker DefaultChunkSize) now data
  let chunkHashes := chunks.map (fun c => c.hash)
  let metadata : FileMetadata :=
    { path := fullPath, hash := List.replicate 32 0, size := (data.length : Int),
      modTime := mtime, chunks := chunkHashes, version := 1 }
  ((fullPath, data), catalogPut cat metadata)

/-- handleFileResponse (multidevice.go): decrypt every chunk (dropping
the whole response on the first failure, with no write and no catalog
change), reassemble, and write the received file.  The first component
is the write that was performed, if any. -/
def handleFileResponse (e : Encryptor) (now : Nat) (mtime : Int) (syncDir : String)
    (cat : Catalog) (response : FileResponse) : Option (String × List Nat) × Catalog :=
  match decryptAll e response.chunks with
  | none => (none, cat)
  | some chunks =>
      let fileData := ReassembleChunks chunks
      let (written, cat2) := writeReceivedFile now mtime syncDir cat response.path fileData
      (some written, cat2)

/-! ## JSON encoding (encoding/json as used by metadata.go and the wire)

Go's `encoding/json` marshals a `[32]byte` array as a JSON array of
numbers (only byte *slices* become base64 strings), a `[][32]byte` as an
array of such arrays, strings as JSON strings and `int64` as numbers;
`time.Time` marshals as an RFC3339 string (modelled as an opaque
rendering of the instant). -/

/-- JSON values. -/
inductive Json where
  | null
  | bool (b : Bool)
  | num (n : Int)
  | str (s : String)
  | arr (elems : List Json)
  | obj (fields : List (String × Json))

/-- Marshaling of a Go `[32]byte` value: an array of 32 numbers. -/
def marshalHash (h : List Nat) : Json :=
  Json.arr (h.map (fun b => Json.num (Int.ofNat b)))

/-- Marshaling of a Go `[][32]byte` value: an array of arrays of
numbers.  This is exactly `json.Marshal(metadata.Chunks)` from
StoreFileMetadata, whose rendering is the text stored in the catalog's
`chunks` column. -/
def marshalChunks (chunks : List (List Nat)) : Json :=
  Json.arr (chunks.map marshalHash)

/-- RFC3339 rendering of a modification instant, modelled as an opaque
injective rendering of the abstract instant. -/
def rfc3339 (t : Int) : String := toString t

/-- Marshaling of types.FileMetadata with its declared json tags:
`path`, `hash`, `size`, `mod_time`, `chunks`, `version`. -/
def marshalFileMetadata (m : FileMetadata) : Json :=
  Json.obj
    [("path", Json.str m.path),
     ("hash", marshalHash m.hash),
     ("size", Json.num m.size),
     ("mod_time", Json.str (rfc3339 m.modTime)),
     ("chunks", marshalChunks m.chunks),
     ("version", Json.num m.version)]

/-- Field lookup in a marshalled JSON object. -/
def jsonLookup (key : String) : Json → Option Json
  | Json.obj fields => (fields.find? (fun f => f.1 = key)).map (fun f => f.2)
  | _ => none

/-- Lowercase hexadecimal digit. -/
def hexDigit (n : Nat) : Char :=
  if n < 10 then Char.ofNat (48 + n) else Char.ofNat (87 + n)

/-- Lowercase hexadecimal encoding of a byte list (two digits per
byte), as `encoding/hex` would produce. -/
def hexEncode (bytes : List Nat) : String :=
  String.mk (bytes.foldr (fun b acc => hexDigit (b % 256 / 16) :: hexDigit (b % 16) :: acc) [])

/-- Modelled from the spec: the chunk-list encoding the specification
describes — "a JSON array of hex-encoded 32-byte hashes (64-character
hex strings)".  Stated for comparison with `marshalChunks`, the encoding
the source actually produces. -/
def specChunksJson (chunks : List (List Nat)) : Json :=
  Json.arr (chunks.map (fun h => Json.str (hexEncode h)))

/-- Whether a character is a lowercase hexadecimal digit. -/
def isHexChar (c : Char) : Prop :=
  (48 ≤ c.toNat ∧ c.toNat ≤ 57) ∨ (97 ≤ c.toNat ∧ c.toNat ≤ 102)

/-- Whether a JSON value is a 64-character hexadecimal string, the shape
the specification claims for each encoded chunk hash. -/
def isHex64Str : Json → Prop
  | Json.str s => s.data.length = 64 ∧ ∀ c ∈ s.data, isHexChar c
  | _ => False

/-! ## Catalog lemmas -/

/-- A put row is found again under its own path. -/
theorem catalogGet_put_self (cat : Catalog) (m : FileMetadata) :
    catalogGet (catalogPut cat m) m.path = some m := by
  unfold catalogPut
  by_cases h : List.any cat (fun e => e.path = m.path)
  · simp only [h, if_true]
    induction cat with
    | nil => simp at h
    | cons e t ih =>
      simp only [List.any_cons, Bool.or_eq_true, decide_eq_true_eq] at h
      by_cases he : e.path = m.path
      · simp [catalogGet, List.find?, he]
      · have ht : List.any t (fun e => e.path = m.path) := by
          rcases h with h | h
          · exact absurd h he
          · exact h
        simpa [catalogGet, List.find?, he] using ih ht
  · simp only [h, if_false]
    induction cat with
    | nil => simp [catalogGet, List.find?]
    | cons e t ih =>
      simp only [List.any_cons, Bool.or_eq_true, decide_eq_true_eq, not_or] at h
      simpa [catalogGet, List.find?, h.1] using ih (by simpa using h.2)

/-- Replacing the row at `m.path` does not affect lookups at a different
path. -/
theorem find_map_replace (m : FileMetadata) (p : String) (hp : p ≠ m.path) :
    ∀ cat : List FileMetadata,
      List.find? (fun x => x.path = p)
        (List.map (fun e => if e.path = m.path then m else e) cat) =
      List.find? (fun x => x.path = p) cat := by
  intro cat
  induction cat with
  | nil => rfl
  | cons e t ih =>
    by_cases he : e.path = m.path
    · have h1 : ¬ (m.path = p) := fun hc => hp hc.symm
      have h2 : ¬ (e.path = p) := fun hc => hp (he ▸ hc).symm
      simp only [List.map_cons, if_pos he, List.find?]
      simpa [h1, h2] using ih
    · simp only [List.map_cons, if_neg he, List.find?]
      by_cases hep : e.path = p
      · simp [hep]
      · simpa [hep] using ih

/-- Appending the new row does not affect lookups at a different path. -/
theorem find_append_single (m : FileMetadata) (p : String) (hp : p ≠ m.path) :
    ∀ cat : List FileMetadata,
      List.find? (fun x => x.path = p) (cat ++ [m]) =
      List.find? (fun x => x.path = p) cat := by
  intro cat
  induction cat with
  | nil =>
    have h1 : ¬ (m.path = p) := fun hc => hp hc.symm
    simp [List.find?, h1]
  | cons e t ih =>
    simp only [List.cons_append, List.find?]
    by_cases hep : e.path = p
    · simp [hep]
    · simpa [hep] using ih

/-- A put leaves rows at other paths unchanged. -/
theorem catalogGet_put_ne (cat : Catalog) (m : FileMetadata) (p : String)
    (hp : p ≠ m.path) : catalogGet (catalogPut cat m) p = catalogGet cat p := by
  unfold catalogPut catalogGet
  by_cases h : List.any cat (fun e => e.path = m.path)
  · simp only [h, if_true]
    exact find_map_replace m p hp cat
  · simp only [h, if_false]
    exact find_append_single m p hp cat

/-! ## Claim C9 -/

/-- C9: constructing a Chunker with a chunk size ≤ 0 yields the default
1 MiB (1048576) chunk size, hence splitting behaves exactly as with the
default; a strictly positive argument is taken as given. -/
theorem NewChunker_default_on_nonpositive (cs : Int) (h : cs ≤ 0) :
    (NewChunker cs).chunkSize = 1048576 ∧
    NewChunker cs = NewChunker DefaultChunkSize ∧
    (∀ now data, ChunkFile (NewChunker cs) now data =
      ChunkFile (NewChunker DefaultChunkSize) now data) ∧
    (∀ cs2 : Int, 0 < cs2 → (NewChunker cs2).chunkSize = cs2) := by
  have hd : ¬ (DefaultChunkSize ≤ (0 : Int)) := by decide
  refine ⟨?_, ?_, ?_, ?_⟩
  · simp [NewChunker, h, DefaultChunkSize]
  · simp [NewChunker, h, hd]
  · intro now data
    simp [NewChunker, h, hd]
  · intro cs2 h2
    simp [NewChunker, not_le.mpr h2]

/-- Witness for C9 at the concrete chunk size -5. -/
theorem NewChunker_default_on_nonpositive_witness :
    ((-5 : Int) ≤ 0) ∧
    ((NewChunker (-5)).chunkSize = 1048576 ∧
     NewChunker (-5) = NewChunker DefaultChunkSize ∧
     (∀ now data, ChunkFile (NewChunker (-5)) now data =
       ChunkFile (NewChunker DefaultChunkSize) now data) ∧
     (∀ cs2 : Int, 0 < cs2 → (NewChunker cs2).chunkSize = cs2)) :=
  ⟨by decide, NewChunker_default_on_nonpositive (-5) (by decide)⟩

/-! ## Claim C10 -/

/-- C10: when DecryptChunk fails (buffer shorter than the 12-byte nonce,
or tag verification failure), the chunk is returned completely
unchanged: data, encrypted flag, hash, size (and creation time) are
exactly as before the call. -/
theorem DecryptChunk_failure_unchanged (e : Encryptor) (c : Chunk)
    (h : (DecryptChunk e c).1.isSome) : (DecryptChunk e c).2 = c := by
  unfold DecryptChunk at h ⊢
  by_cases henc : c.encrypted
  · simp only [henc, Bool.not_true, Bool.false_eq_true, if_false] at h ⊢
    by_cases hlen : c.data.length < nonceSize
    · simp [hlen]
    · simp only [hlen, if_false] at h ⊢
      cases hop : gcmOpen e.key (c.data.take nonceSize) (c.data.drop nonceSize) with
      | none => simp [hop]
      | some pt => rw [hop] at h; simp at h
  · simp [henc] at h

/-- Witness for C10: a sealed chunk whose 3-byte buffer is shorter than
the nonce fails and is returned untouched. -/
theorem DecryptChunk_failure_unchanged_witness :
    ((DecryptChunk { key := List.replicate 32 0 }
        { hash := List.replicate 32 7, data := [1, 2, 3], size := 3,
          encrypted := true, createdAt := 0 }).1.isSome) ∧
    ((DecryptChunk { key := List.replicate 32 0 }
        { hash := List.replicate 32 7, data := [1, 2, 3], size := 3,
          encrypted := true, createdAt := 0 }).2 =
      { hash := List.replicate 32 7, data := [1, 2, 3], size := 3,
        encrypted := true, createdAt := 0 }) :=
  ⟨by decide,
   DecryptChunk_failure_unchanged { key := List.replicate 32 0 }
     { hash := List.replicate 32 7, data := [1, 2, 3], size := 3,
       encrypted := true, createdAt := 0 } (by decide)⟩

/-! ## Claim C1 -/

/-- C1: on receiving a file list, the request generated from a remote
entry is sent back if and only if the local catalog has no entry for its
path or the local entry's version is strictly below the remote version.
The remote list carries catalog contents, so its paths are distinct. -/
theorem handleFileList_request_iff (localFiles remoteFiles : List FileMetadata)
    (rf : FileMetadata)
    (hnodup : (remoteFiles.map FileMetadata.path).Nodup)
    (hmem : rf ∈ remoteFiles) :
    (FileRequest.mk rf.path rf.chunks ∈ handleFileList localFiles remoteFiles) ↔
      (localFileMapLookup localFiles rf.path = none ∨
       ∃ lf, localFileMapLookup localFiles rf.path = some lf ∧
         lf.version < rf.version) := by
  constructor
  · intro hin
    rw [handleFileList, List.mem_filterMap] at hin
    obtain ⟨a, ha, hfa⟩ := hin
    have hpath : a.path = rf.path := by
      cases hl : localFileMapLookup localFiles a.path with
      | none =>
        rw [hl] at hfa
        exact congrArg FileRequest.path (Option.some.inj hfa)
      | some lf =>
        rw [hl] at hfa
        have hfa2 : (if lf.version < a.version then
            some (FileRequest.mk a.path a.chunks) else none) =
            some (FileRequest.mk rf.path rf.chunks) := hfa
        by_cases hv : lf.version < a.version
        · rw [if_pos hv] at hfa2
          exact congrArg FileRequest.path (Option.some.inj hfa2)
        · rw [if_neg hv] at hfa2
          exact absurd hfa2 (by simp)
    have haeq : a = rf := List.inj_on_of_nodup_map hnodup ha hmem hpath
    subst haeq
    cases hl : localFileMapLookup localFiles a.path with
    | none => exact Or.inl rfl
    | some lf =>
      rw [hl] at hfa
      have hfa2 : (if lf.version < a.version then
          some (FileRequest.mk a.path a.chunks) else none) =
          some (FileRequest.mk a.path a.chunks) := hfa
      by_cases hv : lf.version < a.version
      · exact Or.inr ⟨lf, rfl, hv⟩
      · rw [if_neg hv] at hfa2
        exact absurd hfa2 (by simp)
  · intro hcond
    rw [handleFileList, List.mem_filterMap]
    refine ⟨rf, hmem, ?_⟩
    rcases hcond with hl | ⟨lf, hl, hv⟩
    · rw [hl]
    · rw [hl]
      show (if lf.version < rf.version then
          some (FileRequest.mk rf.path rf.chunks) else none) =
          some (FileRequest.mk rf.path rf.chunks)
      rw [if_pos hv]

/-- Witness for C1: a remote file at version 2 against a local entry at
version 1 is requested. -/
theorem handleFileList_request_iff_witness :
    (([{ path := "a.txt", hash := [], size := 0, modTime := 0, chunks := [[1]],
         version := 2 }].map FileMetadata.path).Nodup) ∧
    ({ path := "a.txt", hash := [], size := 0, modTime := 0, chunks := [[1]],
       version := 2 } ∈
      [({ path := "a.txt", hash := [], size := 0, modTime := 0, chunks := [[1]],
          version := 2 } : FileMetadata)]) ∧
    ((FileRequest.mk "a.txt" [[1]] ∈
        handleFileList
          [{ path := "a.txt", hash := [], size := 0, modTime := 0, chunks := [],
             version := 1 }]
          [{ path := "a.txt", hash := [], size := 0, modTime := 0, chunks := [[1]],
             version := 2 }]) ↔
      (localFileMapLookup
          [{ path := "a.txt", hash := [], size := 0, modTime := 0, chunks := [],
             version := 1 }] "a.txt" = none ∨
       ∃ lf, localFileMapLookup
           [{ path := "a.txt", hash := [], size := 0, modTime := 0, chunks := [],
              version := 1 }] "a.txt" = some lf ∧
         lf.version < 2)) :=
  ⟨by decide, by decide,
   handleFileList_request_iff
     [{ path := "a.txt", hash := [], size := 0, modTime := 0, chunks := [],
        version := 1 }]
     [{ path := "a.txt", hash := [], size := 0, modTime := 0, chunks := [[1]],
        version := 2 }]
     { path := "a.txt", hash := [], size := 0, modTime := 0, chunks := [[1]],
       version := 2 }
     (by decide) (by decide)⟩

/-! ## Cryptor lemmas -/

/-- The modelled GCM tag is 16 bytes. -/
theorem gcmTag_length (key nonce pt : List Nat) :
    (gcmTag key nonce pt).length = tagSize := by
  simp [gcmTag]

/-- Opening a sealed buffer under the sealing key and nonce restores the
plaintext. -/
theorem gcmOpen_gcmSeal (key nonce pt : List Nat) :
    gcmOpen key nonce (gcmSeal key nonce pt) = some pt := by
  have h1 : (pt ++ gcmTag key nonce pt).length = pt.length + tagSize := by
    simp [gcmTag_length]
  have h2 : ¬ ((pt ++ gcmTag key nonce pt).length < tagSize) := by
    rw [h1]; exact Nat.not_lt.mpr (Nat.le_add_left _ _)
  have h3 : (pt ++ gcmTag key nonce pt).length - tagSize = pt.length := by
    rw [h1]; omega
  have h4 : pt.length + (gcmTag key nonce pt).length - tagSize = pt.length := by
    rw [gcmTag_length]; omega
  have h5 : tagSize ≤ pt.length + (gcmTag key nonce pt).length := by
    rw [gcmTag_length]; omega
  unfold gcmOpen gcmSeal
  simp [h2, h4, h5, List.take_left, List.drop_left]

/-! ## Claim C7 -/

/-- C7: for a 32-byte key and an unsealed chunk, sealing and then opening
under the same key restores the chunk exactly (same data, hash, size,
and the encrypted flag back to false); seals with distinct fresh nonces
yield different sealed byte buffers, while opening succeeds for any
nonce. -/
theorem EncryptChunk_DecryptChunk_roundtrip (key n1 n2 : List Nat) (c : Chunk)
    (_hkey : key.length = 32) (hn1 : n1.length = nonceSize)
    (hn2 : n2.length = nonceSize) (henc : c.encrypted = false) :
    DecryptChunk { key := key } (EncryptChunk { key := key } n1 c) = (none, c) ∧
    (n1 ≠ n2 →
      (EncryptChunk { key := key } n1 c).data ≠
        (EncryptChunk { key := key } n2 c).data) := by
  constructor
  · obtain ⟨ch, cd, cs, ce, ct⟩ := c
    simp only at henc
    subst henc
    show DecryptChunk { key := key }
        { hash := ch, data := n1 ++ gcmSeal key n1 cd, size := cs,
          encrypted := true, createdAt := ct } = _
    have hlen : ¬ ((n1 ++ gcmSeal key n1 cd).length < nonceSize) := by
      simp only [List.length_append, hn1]
      exact Nat.not_lt.mpr (Nat.le_add_right _ _)
    have htake : (n1 ++ gcmSeal key n1 cd).take nonceSize = n1 := by
      rw [← hn1]; exact List.take_left n1 _
    have hdrop : (n1 ++ gcmSeal key n1 cd).drop nonceSize = gcmSeal key n1 cd := by
      rw [← hn1]; exact List.drop_left n1 _
    unfold DecryptChunk
    simp only [Bool.not_true, Bool.false_eq_true, if_false, hlen, htake, hdrop,
      gcmOpen_gcmSeal]
  · intro hne heq
    apply hne
    have h1 : ((EncryptChunk { key := key } n1 c).data).take nonceSize = n1 := by
      simp only [EncryptChunk, henc, Bool.false_eq_true, if_false]
      rw [← hn1]; exact List.take_left n1 _
    have h2 : ((EncryptChunk { key := key } n2 c).data).take nonceSize = n2 := by
      simp only [EncryptChunk, henc, Bool.false_eq_true, if_false]
      rw [← hn2]; exact List.take_left n2 _
    rw [← h1, ← h2, heq]

/-- Witness for C7: a concrete key, two distinct 12-byte nonces, and a
one-byte plaintext chunk. -/
theorem EncryptChunk_DecryptChunk_roundtrip_witness :
    ((List.replicate 32 0 : List Nat).length = 32) ∧
    ((List.replicate 12 0 : List Nat).length = nonceSize) ∧
    ((1 :: List.replicate 11 0 : List Nat).length = nonceSize) ∧
    (({ hash := List.replicate 32 1, data := [42], size := 1,
        encrypted := false, createdAt := 0 } : Chunk).encrypted = false) ∧
    (DecryptChunk { key := List.replicate 32 0 }
        (EncryptChunk { key := List.replicate 32 0 } (List.replicate 12 0)
          { hash := List.replicate 32 1, data := [42], size := 1,
            encrypted := false, createdAt := 0 }) =
      (none,
        { hash := List.replicate 32 1, data := [42], size := 1,
          encrypted := false, createdAt := 0 }) ∧
     (List.replicate 12 0 ≠ 1 :: List.replicate 11 0 →
       (EncryptChunk { key := List.replicate 32 0 } (List.replicate 12 0)
          { hash := List.replicate 32 1, data := [42], size := 1,
            encrypted := false, createdAt := 0 }).data ≠
       (EncryptChunk { key := List.replicate 32 0 } (1 :: List.replicate 11 0)
          { hash := List.replicate 32 1, data := [42], size := 1,
            encrypted := false, createdAt := 0 }).data)) :=
  ⟨by decide, by decide, by decide, by decide,
   EncryptChunk_DecryptChunk_roundtrip (List.replicate 32 0) (List.replicate 12 0)
     (1 :: List.replicate 11 0)
     { hash := List.replicate 32 1, data := [42], size := 1,
       encrypted := false, createdAt := 0 }
     (by decide) (by decide) (by decide) (by decide)⟩

/-! ## Claim C5 -/

/-- The decryption loop fails as a whole as soon as any chunk fails. -/
theorem decryptAll_none_of_failure (e : Encryptor) :
    ∀ chunks : List Chunk, (∃ c ∈ chunks, ((DecryptChunk e c).1.isSome)) →
      decryptAll e chunks = none := by
  intro chunks
  induction chunks with
  | nil => intro h; simp at h
  | cons c cs ih =>
    intro h
    unfold decryptAll
    cases hdc : DecryptChunk e c with
    | mk o c2 =>
      cases o with
      | some err => rfl
      | none =>
        rcases h with ⟨d, hd, hfail⟩
        rcases List.mem_cons.mp hd with rfl | hdcs
        · rw [hdc] at hfail
          simp at hfail
        · rw [ih ⟨d, hdcs, hfail⟩]
          rfl

/-- C5: a file response in which at least one chunk fails AEAD
verification is dropped entirely: no file is written under the sync
root and the catalog is unchanged. -/
theorem handleFileResponse_drops_on_failure (e : Encryptor) (now : Nat)
    (mtime : Int) (syncDir : String) (cat : Catalog) (response : FileResponse)
    (h : ∃ c ∈ response.chunks, ((DecryptChunk e c).1.isSome)) :
    handleFileResponse e now mtime syncDir cat response = (none, cat) := by
  unfold handleFileResponse
  rw [decryptAll_none_of_failure e response.chunks h]

/-- Witness for C5: a response with one sealed chunk whose buffer is too
short to contain a nonce is dropped, leaving a one-row catalog
unchanged. -/
theorem handleFileResponse_drops_on_failure_witness :
    (∃ c ∈ ({ path := "f.txt",
              chunks := [{ hash := List.replicate 32 2, data := [9], size := 1,
                           encrypted := true, createdAt := 0 }] } : FileResponse).chunks,
       ((DecryptChunk { key := List.replicate 32 0 } c).1.isSome)) ∧
    handleFileResponse { key := List.replicate 32 0 } 0 0 "/sync"
      [{ path := "a.txt", hash := List.replicate 32 0, size := 0, modTime := 0,
         chunks := [], version := 1 }]
      { path := "f.txt",
        chunks := [{ hash := List.replicate 32 2, data := [9], size := 1,
                     encrypted := true, createdAt := 0 }] } =
      (none,
       [{ path := "a.txt", hash := List.replicate 32 0, size := 0, modTime := 0,
          chunks := [], version := 1 }]) :=
  ⟨by decide,
   handleFileResponse_drops_on_failure { key := List.replicate 32 0 } 0 0 "/sync"
     [{ path := "a.txt", hash := List.replicate 32 0, size := 0, modTime := 0,
        chunks := [], version := 1 }]
     { path := "f.txt",
       chunks := [{ hash := List.replicate 32 2, data := [9], size := 1,
                    encrypted := true, createdAt := 0 }] }
     (by decide)⟩

/-! ## Chunker lemmas -/

/-- Unfolding: splitting the empty buffer yields no chunks. -/
theorem chunkBytes_nil (csize now : Nat) : chunkBytes csize now [] = [] := by
  rw [chunkBytes]
  simp

/-- Unfolding: splitting a non-empty buffer with a positive chunk size
emits the first `csize` bytes as a chunk and recurses on the rest. -/
theorem chunkBytes_cons (csize now : Nat) (data : List Nat)
    (hc : csize ≠ 0) (hd : data ≠ []) :
    chunkBytes csize now data =
      { hash := sha256 (data.take csize), data := data.take csize,
        size := ((data.take csize).length : Int), encrypted := false,
        createdAt := now } :: chunkBytes csize now (data.drop csize) := by
  rw [chunkBytes]
  simp [hc, hd]

/-- Folding a reassembly from an accumulator prepends the accumulator. -/
theorem reassemble_foldl_acc (l : List Chunk) :
    ∀ a : List Nat, l.foldl (fun r c => r ++ c.data) a =
      a ++ l.foldl (fun r c => r ++ c.data) [] := by
  induction l with
  | nil => intro a; simp
  | cons c cs ih =>
    intro a
    simp only [List.foldl_cons, List.nil_append]
    rw [ih (a ++ c.data), ih c.data, List.append_assoc]

/-- Reassembly of a cons. -/
theorem ReassembleChunks_cons (c : Chunk) (cs : List Chunk) :
    ReassembleChunks (c :: cs) = c.data ++ ReassembleChunks cs := by
  unfold ReassembleChunks
  simp only [List.foldl_cons, List.nil_append]
  exact reassemble_foldl_acc cs c.data

/-- Splitting yields the empty chunk list only for the empty buffer
(positive chunk size). -/
theorem chunkBytes_ne_nil (csize now : Nat) (data : List Nat)
    (hc : csize ≠ 0) (hd : data ≠ []) : chunkBytes csize now data ≠ [] := by
  rw [chunkBytes_cons csize now data hc hd]
  exact List.cons_ne_nil _ _

/-- Reassembling the chunks of a buffer restores the buffer. -/
theorem reassemble_chunkBytes (csize now : Nat) (hc : 0 < csize) :
    ∀ data : List Nat, ReassembleChunks (chunkBytes csize now data) = data := by
  have key : ∀ n : Nat, ∀ data : List Nat, data.length = n →
      ReassembleChunks (chunkBytes csize now data) = data := by
    intro n
    induction n using Nat.strong_induction_on with
    | _ n ih =>
      intro data hlen
      by_cases hd : data = []
      · subst hd
        rw [chunkBytes_nil]
        rfl
      · rw [chunkBytes_cons csize now data (Nat.pos_iff_ne_zero.mp hc) hd,
          ReassembleChunks_cons]
        have hlt : (data.drop csize).length < n := by
          rw [← hlen, List.length_drop]
          exact Nat.sub_lt (List.length_pos.mpr hd) hc
        rw [ih _ hlt (data.drop csize) rfl]
        exact List.take_append_drop csize data
  exact fun data => key data.length data rfl

/-- Every emitted chunk carries the SHA-256 of its own data, has
positive length, length at most the chunk size, and a size field equal
to its data length. -/
theorem chunkBytes_chunk_shape (csize now : Nat) (hc : 0 < csize) :
    ∀ data : List Nat, ∀ c ∈ chunkBytes csize now data,
      c.hash = sha256 c.data ∧ 0 < c.data.length ∧ c.data.length ≤ csize ∧
      c.size = (c.data.length : Int) := by
  have key : ∀ n : Nat, ∀ data : List Nat, data.length = n →
      ∀ c ∈ chunkBytes csize now data,
        c.hash = sha256 c.data ∧ 0 < c.data.length ∧ c.data.length ≤ csize ∧
        c.size = (c.data.length : Int) := by
    intro n
    induction n using Nat.strong_induction_on with
    | _ n ih =>
      intro data hlen c hcmem
      by_cases hd : data = []
      · subst hd
        rw [chunkBytes_nil] at hcmem
        exact absurd hcmem (List.not_mem_nil c)
      · rw [chunkBytes_cons csize now data (Nat.pos_iff_ne_zero.mp hc) hd] at hcmem
        rcases List.mem_cons.mp hcmem with rfl | htail
        · refine ⟨rfl, ?_, ?_, rfl⟩
          · simp only [List.length_take]
            exact lt_min hc (List.length_pos.mpr hd)
          · simp only [List.length_take]
            exact min_le_left _ _
        · have hlt : (data.drop csize).length < n := by
            rw [← hlen, List.length_drop]
            exact Nat.sub_lt (List.length_pos.mpr hd) hc
          exact ih _ hlt (data.drop csize) rfl c htail
  exact fun data => key data.length data rfl

/-- Every chunk before the last has length exactly the chunk size. -/
theorem chunkBytes_dropLast_length (csize now : Nat) (hc : 0 < csize) :
    ∀ data : List Nat, ∀ c ∈ (chunkBytes csize now data).dropLast,
      c.data.length = csize := by
  have key : ∀ n : Nat, ∀ data : List Nat, data.length = n →
      ∀ c ∈ (chunkBytes csize now data).dropLast, c.data.length = csize := by
    intro n
    induction n using Nat.strong_induction_on with
    | _ n ih =>
      intro data hlen c hcmem
      by_cases hd : data = []
      · subst hd
        rw [chunkBytes_nil] at hcmem
        exact absurd hcmem (List.not_mem_nil c)
      · rw [chunkBytes_cons csize now data (Nat.pos_iff_ne_zero.mp hc) hd] at hcmem
        by_cases htl : chunkBytes csize now (data.drop csize) = []
        · rw [htl] at hcmem
          exact absurd hcmem (List.not_mem_nil c)
        · rw [List.dropLast_cons_of_ne_nil htl] at hcmem
          have hdrop : data.drop csize ≠ [] := by
            intro hcon
            exact htl (hcon ▸ chunkBytes_nil csize now)
          have hcsle : csize < data.length := by
            have := List.length_pos.mpr hdrop
            rw [List.length_drop] at this
            omega
          rcases List.mem_cons.mp hcmem with rfl | htail
          · simp only [List.length_take]
            exact min_eq_left (Nat.le_of_lt hcsle)
          · have hlt : (data.drop csize).length < n := by
              rw [← hlen, List.length_drop]
              exact Nat.sub_lt (List.length_pos.mpr hd) hc
            exact ih _ hlt (data.drop csize) rfl c htail
  exact fun data => key data.length data rfl

/-! ## Claim C6 -/

/-- C6: for every buffer and positive chunk size, reassembling the split
restores the buffer exactly; every chunk before the last has length
exactly the chunk size and every chunk is non-empty and no longer than
the chunk size; each chunk's hash is the SHA-256 of its own plaintext;
the empty buffer yields no chunks; and a 25-byte buffer split at 10
yields three chunks of sizes 10, 10, 5. -/
theorem chunkBytes_split_reassemble (C : Nat) (hC : 0 < C) (now : Nat)
    (B : List Nat) :
    ReassembleChunks (chunkBytes C now B) = B ∧
    (∀ c ∈ chunkBytes C now B, c.hash = sha256 c.data) ∧
    (∀ c ∈ (chunkBytes C now B).dropLast, c.data.length = C) ∧
    (∀ c ∈ chunkBytes C now B, 0 < c.data.length ∧ c.data.length ≤ C) ∧
    chunkBytes C now [] = [] ∧
    (∀ B25 : List Nat, B25.length = 25 →
      (chunkBytes 10 now B25).map (fun c => (c.data.length, c.size)) =
        [(10, (10 : Int)), (10, (10 : Int)), (5, (5 : Int))]) := by
  refine ⟨reassemble_chunkBytes C now hC B, ?_, chunkBytes_dropLast_length C now hC B,
    ?_, chunkBytes_nil C now, ?_⟩
  · intro c hc
    exact (chunkBytes_chunk_shape C now hC B c hc).1
  · intro c hc
    exact ⟨(chunkBytes_chunk_shape C now hC B c hc).2.1,
      (chunkBytes_chunk_shape C now hC B c hc).2.2.1⟩
  · intro B25 h25
    have hB1 : B25 ≠ [] := by
      intro hcon
      rw [hcon] at h25
      simp at h25
    have l1 : (B25.take 10).length = 10 := by
      rw [List.length_take, h25]
      decide
    have d1 : (B25.drop 10).length = 15 := by
      rw [List.length_drop, h25]
    have hB2 : B25.drop 10 ≠ [] := by
      intro hcon
      rw [hcon] at d1
      simp at d1
    have l2 : ((B25.drop 10).take 10).length = 10 := by
      rw [List.length_take, d1]
      decide
    have d2 : ((B25.drop 10).drop 10).length = 5 := by
      rw [List.length_drop, d1]
    have hB3 : (B25.drop 10).drop 10 ≠ [] := by
      intro hcon
      rw [hcon] at d2
      simp at d2
    have l3 : (((B25.drop 10).drop 10).take 10).length = 5 := by
      rw [List.length_take, d2]
      decide
    have d3 : (((B25.drop 10).drop 10).drop 10).length = 0 := by
      rw [List.length_drop, d2]
    have hB4 : ((B25.drop 10).drop 10).drop 10 = [] := List.eq_nil_of_length_eq_zero d3
    rw [chunkBytes_cons 10 now B25 (by omega) hB1,
      chunkBytes_cons 10 now (B25.drop 10) (by omega) hB2,
      chunkBytes_cons 10 now ((B25.drop 10).drop 10) (by omega) hB3,
      hB4, chunkBytes_nil]
    simp only [List.map_cons, List.map_nil, l1, l2, l3]
    decide

/-- Witness for C6 at chunk size 10 over the 25-byte buffer 0..24. -/
theorem chunkBytes_split_reassemble_witness :
    (0 < 10) ∧
    (ReassembleChunks (chunkBytes 10 0 (List.range 25)) = List.range 25 ∧
     (∀ c ∈ chunkBytes 10 0 (List.range 25), c.hash = sha256 c.data) ∧
     (∀ c ∈ (chunkBytes 10 0 (List.range 25)).dropLast, c.data.length = 10) ∧
     (∀ c ∈ chunkBytes 10 0 (List.range 25),
        0 < c.data.length ∧ c.data.length ≤ 10) ∧
     chunkBytes 10 0 [] = [] ∧
     (∀ B25 : List Nat, B25.length = 25 →
       (chunkBytes 10 0 B25).map (fun c => (c.data.length, c.size)) =
         [(10, (10 : Int)), (10, (10 : Int)), (5, (5 : Int))])) :=
  ⟨by decide, chunkBytes_split_reassemble 10 (by decide) 0 (List.range 25)⟩

/-! ## Engine lemmas -/

/-- Specialization of `catalogGet_put_self` to a literal row. -/
theorem catalogGet_put_mk (cat : Catalog) (ph : String) (hs : List Nat) (sz : Int)
    (mt : Int) (cks : List (List Nat)) (ver : Int) :
    catalogGet (catalogPut cat
      { path := ph, hash := hs, size := sz, modTime := mt, chunks := cks,
        version := ver }) ph =
      some { path := ph, hash := hs, size := sz, modTime := mt, chunks := cks,
             version := ver } :=
  catalogGet_put_self cat _

/-- processFile stores version 1 when the path is absent. -/
theorem processFile_version_none (chunker : Chunker) (e : Encryptor) (now : Nat)
    (nonces : Nat → List Nat) (cat : Catalog) (relPath : String) (f : FsFile)
    (h : catalogGet cat relPath = none) :
    (catalogGet (processFile chunker e now nonces cat relPath f) relPath).map
      (fun r => r.version) = some 1 := by
  unfold processFile
  simp only [h]
  rw [catalogGet_put_mk]
  rfl

/-- processFile always stores `prior.version + 1` when a row exists —
regardless of whether the observed size and modification time differ
from the stored ones. -/
theorem processFile_version_some (chunker : Chunker) (e : Encryptor) (now : Nat)
    (nonces : Nat → List Nat) (cat : Catalog) (relPath : String) (f : FsFile)
    (m : FileMetadata) (h : catalogGet cat relPath = some m) :
    (catalogGet (processFile chunker e now nonces cat relPath f) relPath).map
      (fun r => r.version) = some (m.version + 1) := by
  unfold processFile
  simp only [h]
  rw [catalogGet_put_mk]
  rfl

/-- A one-file scan of a regular file is exactly one processFile call. -/
theorem ScanDirectory_singleton (chunker : Chunker) (e : Encryptor) (now : Nat)
    (nonces : Nat → List Nat) (cat : Catalog) (relPath : String) (f : FsFile)
    (hdir : f.isDir = false) :
    ScanDirectory chunker e now nonces cat [(relPath, f)] =
      processFile chunker e now nonces cat relPath f := by
  unfold ScanDirectory
  simp [hdir]

/-! ## Claim C2 -/

/-- C2 (amended): event processing (`handleFileChange`) leaves the
catalog unchanged when the observed size and modification time equal the
stored record, and stores `prior.version + 1` (or 1 with no record)
otherwise; but `scan()` calls `processFile` directly for every regular
file, which always stores `prior.version + 1`, even when the observed
size and modification time equal the stored record. -/
theorem ingest_version_behavior (chunker : Chunker) (e : Encryptor) (now : Nat)
    (nonces : Nat → List Nat) (cat : Catalog) (relPath : String) (f : FsFile)
    (hdir : f.isDir = false) :
    (∀ m, catalogGet cat relPath = some m → f.modTime = m.modTime →
      f.size = m.size →
      handleFileChange chunker e now nonces cat relPath (some f) = cat) ∧
    (∀ m, catalogGet cat relPath = some m →
      ¬(f.modTime = m.modTime ∧ f.size = m.size) →
      (catalogGet (handleFileChange chunker e now nonces cat relPath (some f))
          relPath).map (fun r => r.version) = some (m.version + 1)) ∧
    (catalogGet cat relPath = none →
      (catalogGet (handleFileChange chunker e now nonces cat relPath (some f))
          relPath).map (fun r => r.version) = some 1) ∧
    (∀ m, catalogGet cat relPath = some m →
      (catalogGet (ScanDirectory chunker e now nonces cat [(relPath, f)])
          relPath).map (fun r => r.version) = some (m.version + 1)) := by
  refine ⟨?_, ?_, ?_, ?_⟩
  · intro m hm hmt hsz
    unfold handleFileChange
    simp [hdir, hm, hmt, hsz]
  · intro m hm hne
    unfold handleFileChange
    have hcond : (f.modTime = m.modTime && f.size = m.size) = false := by
      rcases Decidable.em (f.modTime = m.modTime) with hmt | hmt
      · rcases Decidable.em (f.size = m.size) with hsz | hsz
        · exact absurd ⟨hmt, hsz⟩ hne
        · simp [hmt, hsz]
      · simp [hmt]
    simp only [hdir, Bool.false_eq_true, if_false, hm, hcond]
    exact processFile_version_some chunker e now nonces cat relPath f m hm
  · intro hm
    unfold handleFileChange
    simp only [hdir, Bool.false_eq_true, if_false, hm]
    exact processFile_version_none chunker e now nonces cat relPath f hm
  · intro m hm
    rw [ScanDirectory_singleton chunker e now nonces cat relPath f hdir]
    exact processFile_version_some chunker e now nonces cat relPath f m hm

/-- Witness for C2's amended theorem: a regular file against a one-row
catalog. -/
theorem ingest_version_behavior_witness :
    (({ size := 1, modTime := 5, isDir := false, data := [7] } : FsFile).isDir
      = false) ∧
    ((∀ m, catalogGet
        [{ path := "a.txt", hash := List.replicate 32 0, size := 1, modTime := 5,
           chunks := [], version := 1 }] "a.txt" = some m →
        ({ size := 1, modTime := 5, isDir := false, data := [7] } : FsFile).modTime
          = m.modTime →
        ({ size := 1, modTime := 5, isDir := false, data := [7] } : FsFile).size
          = m.size →
        handleFileChange (NewChunker 1024) { key := List.replicate 32 0 } 0
          (fun _ => List.replicate 12 0)
          [{ path := "a.txt", hash := List.replicate 32 0, size := 1, modTime := 5,
             chunks := [], version := 1 }] "a.txt"
          (some { size := 1, modTime := 5, isDir := false, data := [7] }) =
          [{ path := "a.txt", hash := List.replicate 32 0, size := 1, modTime := 5,
             chunks := [], version := 1 }]) ∧
     (∀ m, catalogGet
        [{ path := "a.txt", hash := List.replicate 32 0, size := 1, modTime := 5,
           chunks := [], version := 1 }] "a.txt" = some m →
        ¬(({ size := 1, modTime := 5, isDir := false, data := [7] } : FsFile).modTime
            = m.modTime ∧
          ({ size := 1, modTime := 5, isDir := false, data := [7] } : FsFile).size
            = m.size) →
        (catalogGet (handleFileChange (NewChunker 1024) { key := List.replicate 32 0 }
            0 (fun _ => List.replicate 12 0)
            [{ path := "a.txt", hash := List.replicate 32 0, size := 1, modTime := 5,
               chunks := [], version := 1 }] "a.txt"
            (some { size := 1, modTime := 5, isDir := false, data := [7] }))
            "a.txt").map (fun r => r.version) = some (m.version + 1)) ∧
     (catalogGet
        [{ path := "a.txt", hash := List.replicate 32 0, size := 1, modTime := 5,
           chunks := [], version := 1 }] "a.txt" = none →
        (catalogGet (handleFileChange (NewChunker 1024) { key := List.replicate 32 0 }
            0 (fun _ => List.replicate 12 0)
            [{ path := "a.txt", hash := List.replicate 32 0, size := 1, modTime := 5,
               chunks := [], version := 1 }] "a.txt"
            (some { size := 1, modTime := 5, isDir := false, data := [7] }))
            "a.txt").map (fun r => r.version) = some 1) ∧
     (∀ m, catalogGet
        [{ path := "a.txt", hash := List.replicate 32 0, size := 1, modTime := 5,
           chunks := [], version := 1 }] "a.txt" = some m →
        (catalogGet (ScanDirectory (NewChunker 1024) { key := List.replicate 32 0 }
            0 (fun _ => List.replicate 12 0)
            [{ path := "a.txt", hash := List.replicate 32 0, size := 1, modTime := 5,
               chunks := [], version := 1 }]
            [("a.txt", { size := 1, modTime := 5, isDir := false, data := [7] })])
            "a.txt").map (fun r => r.version) = some (m.version + 1))) :=
  ⟨by decide,
   ingest_version_behavior (NewChunker 1024) { key := List.replicate 32 0 } 0
     (fun _ => List.replicate 12 0)
     [{ path := "a.txt", hash := List.replicate 32 0, size := 1, modTime := 5,
        chunks := [], version := 1 }] "a.txt"
     { size := 1, modTime := 5, isDir := false, data := [7] } (by decide)⟩

/-- Counterexample for C2 as stated: the catalog holds `a.txt` at
version 1 with size 1 and modification time 5; scanning observes the
same size and modification time, yet the stored version becomes 2
instead of staying 1. -/
theorem scan_bumps_unchanged_file :
    catalogGet
      [{ path := "a.txt", hash := List.replicate 32 0, size := 1, modTime := 5,
         chunks := [], version := 1 }] "a.txt" =
      some { path := "a.txt", hash := List.replicate 32 0, size := 1, modTime := 5,
             chunks := [], version := 1 } ∧
    ({ size := 1, modTime := 5, isDir := false, data := [7] } : FsFile).size = 1 ∧
    ({ size := 1, modTime := 5, isDir := false, data := [7] } : FsFile).modTime = 5 ∧
    (catalogGet (ScanDirectory (NewChunker 1024) { key := List.replicate 32 0 } 0
        (fun _ => List.replicate 12 0)
        [{ path := "a.txt", hash := List.replicate 32 0, size := 1, modTime := 5,
           chunks := [], version := 1 }]
        [("a.txt", { size := 1, modTime := 5, isDir := false, data := [7] })])
        "a.txt").map (fun r => r.version) = some 2 := by
  refine ⟨by decide, by decide, by decide, ?_⟩
  rw [ScanDirectory_singleton _ _ _ _ _ _ _ (by decide)]
  rw [processFile_version_some (NewChunker 1024) { key := List.replicate 32 0 } 0
    (fun _ => List.replicate 12 0) _ "a.txt" _
    { path := "a.txt", hash := List.replicate 32 0, size := 1, modTime := 5,
      chunks := [], version := 1 } (by decide)]
  rfl

/-! ## Claim C3 -/

/-- C3 (code behavior at the failing input): a regular file at relative
path `.fybrk/key` under the sync root IS ingested — a full scan creates
a catalog entry for it, event processing (`handleFileChange`) creates a
catalog entry for it, and the watcher's `handleEvent` forwards the event
on a `.fybrk` path unfiltered.  No `.fybrk` filtering exists anywhere in
the pipeline, contradicting the specified invariant. -/
theorem fybrk_subtree_is_ingested :
    ((catalogGet (ScanDirectory (NewChunker 1024) { key := List.replicate 32 0 } 0
        (fun _ => List.replicate 12 0) []
        [(".fybrk/key",
          { size := 2, modTime := 3, isDir := false, data := [1, 2] })])
        ".fybrk/key").isSome = true) ∧
    ((catalogGet (handleFileChange (NewChunker 1024) { key := List.replicate 32 0 } 0
        (fun _ => List.replicate 12 0) [] ".fybrk/key"
        (some { size := 2, modTime := 3, isDir := false, data := [1, 2] }))
        ".fybrk/key").isSome = true) ∧
    (watcherHandleEvent { name := "/sync/.fybrk/key", op := fsnotifyCreate } =
      some { path := "/sync/.fybrk/key", operation := "create" }) := by
  have hpf : ∀ cat : Catalog, catalogGet cat ".fybrk/key" = none →
      (catalogGet (processFile (NewChunker 1024) { key := List.replicate 32 0 } 0
        (fun _ => List.replicate 12 0) cat ".fybrk/key"
        { size := 2, modTime := 3, isDir := false, data := [1, 2] })
        ".fybrk/key").isSome = true := by
    intro cat hnone
    have h := processFile_version_none (NewChunker 1024) { key := List.replicate 32 0 }
      0 (fun _ => List.replicate 12 0) cat ".fybrk/key"
      { size := 2, modTime := 3, isDir := false, data := [1, 2] } hnone
    cases hg : catalogGet (processFile (NewChunker 1024) { key := List.replicate 32 0 }
        0 (fun _ => List.replicate 12 0) cat ".fybrk/key"
        { size := 2, modTime := 3, isDir := false, data := [1, 2] }) ".fybrk/key" with
    | none => rw [hg] at h; simp at h
    | some r => rfl
  refine ⟨?_, ?_, rfl⟩
  · rw [ScanDirectory_singleton _ _ _ _ _ _ _ (by decide)]
    exact hpf [] rfl
  · have hstep : handleFileChange (NewChunker 1024) { key := List.replicate 32 0 } 0
        (fun _ => List.replicate 12 0) [] ".fybrk/key"
        (some { size := 2, modTime := 3, isDir := false, data := [1, 2] }) =
        processFile (NewChunker 1024) { key := List.replicate 32 0 } 0
          (fun _ => List.replicate 12 0) [] ".fybrk/key"
          { size := 2, modTime := 3, isDir := false, data := [1, 2] } := by
      unfold handleFileChange
      rfl
    rw [hstep]
    exact hpf [] rfl

/-! ## Claim C4 -/

/-- C4 (amended): when every chunk of a file response decrypts, the
receiver writes the reassembled plaintext to
`filepath.Join(sync-root, filepath.Base(R))` — the basename of `R`,
discarding any directory components — and stores a catalog entry whose
path is that full joined path (not the relative `R`), with version 1,
the stat results of the written file, and a zero whole-file hash. -/
theorem handleFileResponse_success_behavior (e : Encryptor) (now : Nat)
    (mtime : Int) (syncDir : String) (cat : Catalog) (response : FileResponse)
    (cs : List Chunk) (h : decryptAll e response.chunks = some cs) :
    (handleFileResponse e now mtime syncDir cat response).1 =
      some (filepathJoin syncDir (filepathBase response.path),
        ReassembleChunks cs) ∧
    catalogGet (handleFileResponse e now mtime syncDir cat response).2
        (filepathJoin syncDir (filepathBase response.path)) =
      some { path := filepathJoin syncDir (filepathBase response.path),
             hash := List.replicate 32 0,
             size := ((ReassembleChunks cs).length : Int), modTime := mtime,
             chunks := (ChunkFile (NewChunker DefaultChunkSize) now
               (ReassembleChunks cs)).map (fun c => c.hash),
             version := 1 } := by
  unfold handleFileResponse
  rw [h]
  exact ⟨rfl, catalogGet_put_mk cat _ _ _ _ _ _⟩

/-- Witness for C4's amended theorem: an empty, trivially-decrypting
response for `docs/a.txt` against an empty catalog. -/
theorem handleFileResponse_success_behavior_witness :
    (decryptAll { key := List.replicate 32 0 }
      ({ path := "docs/a.txt", chunks := [] } : FileResponse).chunks = some []) ∧
    ((handleFileResponse { key := List.replicate 32 0 } 0 0 "/sync" []
        { path := "docs/a.txt", chunks := [] }).1 =
      some (filepathJoin "/sync" (filepathBase "docs/a.txt"),
        ReassembleChunks []) ∧
     catalogGet (handleFileResponse { key := List.replicate 32 0 } 0 0 "/sync" []
        { path := "docs/a.txt", chunks := [] }).2
        (filepathJoin "/sync" (filepathBase "docs/a.txt")) =
      some { path := filepathJoin "/sync" (filepathBase "docs/a.txt"),
             hash := List.replicate 32 0,
             size := ((ReassembleChunks []).length : Int), modTime := 0,
             chunks := (ChunkFile (NewChunker DefaultChunkSize) 0
               (ReassembleChunks [])).map (fun c => c.hash),
             version := 1 }) :=
  ⟨by decide,
   handleFileResponse_success_behavior { key := List.replicate 32 0 } 0 0 "/sync" []
     { path := "docs/a.txt", chunks := [] } [] (by decide)⟩

/-- Counterexample for C4 as stated: for a response carrying relative
path `docs/a.txt` whose chunks all decrypt, the file is written to
`/sync/a.txt` — not `/sync/docs/a.txt` — and the catalog entry is keyed
by the absolute path `/sync/a.txt` with version 1, not by the relative
path `docs/a.txt`. -/
theorem handleFileResponse_path_counterexample :
    (handleFileResponse { key := List.replicate 32 0 } 0 0 "/sync" []
        { path := "docs/a.txt", chunks := [] }).1 =
      some ("/sync/a.txt", []) ∧
    ("/sync/a.txt" : String) ≠ "/sync/docs/a.txt" ∧
    catalogGet (handleFileResponse { key := List.replicate 32 0 } 0 0 "/sync" []
        { path := "docs/a.txt", chunks := [] }).2 "docs/a.txt" = none ∧
    (catalogGet (handleFileResponse { key := List.replicate 32 0 } 0 0 "/sync" []
        { path := "docs/a.txt", chunks := [] }).2 "/sync/a.txt").map
      (fun r => (r.path, r.version)) = some ("/sync/a.txt", 1) := by
  exact ⟨by decide, by decide, by decide, by decide⟩

/-! ## Claim C8 -/

/-- C8 (amended): the catalog's `chunks` column and the wire format
marshal each 32-byte hash as a JSON array of 32 numbers (Go marshals a
`[32]byte` array as an array of integers, not as a hex string): the
wire `hash` field and every element of the encoded chunk list are
integer arrays, never 64-character hex strings, and whenever the chunk
list is non-empty the produced encoding differs from the hex-string
encoding the specification describes. -/
theorem fileMetadata_encoding_shape (m : FileMetadata) :
    jsonLookup "chunks" (marshalFileMetadata m) = some (marshalChunks m.chunks) ∧
    jsonLookup "hash" (marshalFileMetadata m) = some (marshalHash m.hash) ∧
    marshalChunks m.chunks =
      Json.arr (m.chunks.map
        (fun h => Json.arr (h.map (fun b => Json.num (Int.ofNat b))))) ∧
    (∀ h ∈ m.chunks,
      ¬ isHex64Str (Json.arr (h.map (fun b => Json.num (Int.ofNat b))))) ∧
    (¬ isHex64Str (marshalHash m.hash)) ∧
    (m.chunks ≠ [] → marshalChunks m.chunks ≠ specChunksJson m.chunks) := by
  refine ⟨rfl, rfl, rfl, ?_, ?_, ?_⟩
  · intro h _ hx
    exact hx
  · intro hx
    exact hx
  · intro hne heq
    cases hc : m.chunks with
    | nil => exact hne hc
    | cons h t =>
      rw [hc] at heq
      unfold marshalChunks specChunksJson at heq
      simp only [List.map_cons] at heq
      have h1 := Json.arr.inj heq
      have h2 := (List.cons.inj h1).1
      exact Json.noConfusion h2

/-- Witness for C8's amended theorem at a concrete metadata value. -/
theorem fileMetadata_encoding_shape_witness :
    jsonLookup "chunks" (marshalFileMetadata
      { path := "a.txt", hash := List.replicate 32 9, size := 1, modTime := 0,
        chunks := [List.replicate 32 171], version := 1 }) =
      some (marshalChunks [List.replicate 32 171]) ∧
    jsonLookup "hash" (marshalFileMetadata
      { path := "a.txt", hash := List.replicate 32 9, size := 1, modTime := 0,
        chunks := [List.replicate 32 171], version := 1 }) =
      some (marshalHash (List.replicate 32 9)) ∧
    marshalChunks [List.replicate 32 171] =
      Json.arr ([List.replicate 32 171].map
        (fun h => Json.arr (h.map (fun b => Json.num (Int.ofNat b))))) ∧
    (∀ h ∈ [List.replicate 32 171],
      ¬ isHex64Str (Json.arr (h.map (fun b => Json.num (Int.ofNat b))))) ∧
    (¬ isHex64Str (marshalHash (List.replicate 32 9))) ∧
    ([List.replicate 32 171] ≠ ([] : List (List Nat)) →
      marshalChunks [List.replicate 32 171] ≠
        specChunksJson [List.replicate 32 171]) :=
  fileMetadata_encoding_shape
    { path := "a.txt", hash := List.replicate 32 9, size := 1, modTime := 0,
      chunks := [List.replicate 32 171], version := 1 }

/-- Counterexample for C8 as stated: the hash whose 32 bytes are all
0xAB is serialized as an array of 32 copies of the number 171, which is
not a 64-character hex string and differs from the hex encoding
`"abab…ab"` the specification describes. -/
theorem chunk_hashes_marshal_as_number_arrays :
    marshalChunks [List.replicate 32 171] =
      Json.arr [Json.arr (List.replicate 32 (Json.num 171))] ∧
    specChunksJson [List.replicate 32 171] =
      Json.arr [Json.str
        "abababababababababababababababababababababababababababababababab"] ∧
    marshalChunks [List.replicate 32 171] ≠
      specChunksJson [List.replicate 32 171] ∧
    ¬ isHex64Str (Json.arr (List.replicate 32 (Json.num 171))) := by
  refine ⟨?_, ?_, ?_, ?_⟩
  · show Json.arr [Json.arr ((List.replicate 32 171).map
        (fun b => Json.num (Int.ofNat b)))] = _
    rw [List.map_replicate]
    norm_num
  · unfold specChunksJson
    simp only [List.map_cons, List.map_nil]
    have hhex : hexEncode (List.replicate 32 171) =
        "abababababababababababababababababababababababababababababababab" := by
      decide
    rw [hhex]
  · intro heq
    unfold marshalChunks specChunksJson at heq
    simp only [List.map_cons, List.map_nil] at heq
    have h1 := Json.arr.inj heq
    have h2 := (List.cons.inj h1).1
    exact Json.noConfusion h2
  · intro hx
    exact hx

end Fybrk
